import Mathlib

/-!
A verification of the `slicemap` interval-to-value map.

This file gives a shallow embedding of `src/slicemap/slicemap.py`:
a `SliceMap` maps half-open numeric intervals to values.  Internally it
keeps a list of `Pair` entries `(up_to_key, value)` sorted ascending by
`up_to_key`, with a permanent sentinel entry at `+infinity`.

Keys are modelled as extended rationals: `WithBot (WithTop ℚ)`, so `⊥`
plays the role of `-float("inf")` and `⊤` of `float("inf")`.  Python's
`SortedList` bisect operations on a list sorted by `up_to_key` are
modelled by `takeWhile` lengths, which coincide with binary search on a
sorted list.  Python values (including `None`) are modelled as
`Option V`; a raised `IndexError` is modelled by an `Option`-valued
result being `none`.
-/

set_option maxRecDepth 4000

/-- Extended keys: finite rationals together with `-inf` (`⊥`) and `+inf` (`⊤`). -/
abbrev EKey : Type := WithBot (WithTop ℚ)

/-- The embedding of a finite key. -/
def EKey.fin (q : ℚ) : EKey := ((q : WithTop ℚ) : WithBot (WithTop ℚ))

/-- One entry of the slice map: the exclusive upper bound of an interval,
and the value held on that interval (`none` models Python's `None`). -/
structure Pair (V : Type) where
  up_to_key : EKey
  value : Option V
deriving DecidableEq, Repr

/-- The boundary-inclusion policy: Python's `include="start"` / `include="end"`. -/
inductive Side where
  | start
  | «end»
deriving DecidableEq, Repr

/-- Models `SortedList.bisect_left` on a list sorted by `up_to_key`:
index of the first entry with `up_to_key ≥ k`. -/
def bisect_left {V : Type} (l : List (Pair V)) (k : EKey) : Nat :=
  (l.takeWhile (fun p => p.up_to_key < k)).length

/-- Models `SortedList.bisect_right` on a list sorted by `up_to_key`:
index of the first entry with `up_to_key > k`. -/
def bisect_right {V : Type} (l : List (Pair V)) (k : EKey) : Nat :=
  (l.takeWhile (fun p => p.up_to_key ≤ k)).length

/-- Models `SortedList.add`: insert an entry keeping the list sorted by
`up_to_key` (after any entries with an equal key). -/
def addPair {V : Type} (l : List (Pair V)) (p : Pair V) : List (Pair V) :=
  match l with
  | [] => [p]
  | q :: rest => if q.up_to_key ≤ p.up_to_key then q :: addPair rest p else p :: q :: rest

/-- The slice map: the sorted entry list and the inclusion policy
(the Python attribute is called `include`, a Lean keyword, hence `inc`). -/
structure SliceMap (V : Type) where
  data : List (Pair V)
  inc : Side
deriving DecidableEq, Repr

namespace SliceMap

/-- Models `SliceMap.__init__`: one sentinel entry `(inf, None)` plus the policy. -/
def init (V : Type) (inc : Side) : SliceMap V :=
  { data := [⟨⊤, none⟩], inc := inc }

/-- Models `SliceMap.__setitem__` for the slice `start:stop` and the given value.
`start`/`stop` are already the defaulted bounds (`None` ↦ `±inf`).
The pop loop removes exactly the contiguous block
`data[start_key_idx : end_key_idx]`. -/
def setItem {V : Type} (m : SliceMap V) (start stop : EKey) (value : Option V) :
    SliceMap V :=
  if start ≥ stop then m
  else
    let start_key_idx := bisect_left m.data start
    let end_key_idx := bisect_right m.data stop
    let old_value_to_keep : Option V :=
      match m.data[start_key_idx]? with
      | some p => p.value
      | none => none
    let removed := m.data.take start_key_idx ++ m.data.drop end_key_idx
    let withStart :=
      if (⊥ : EKey) < start then addPair removed ⟨start, old_value_to_keep⟩ else removed
    { m with data := addPair withStart ⟨stop, value⟩ }

/-- The per-policy search function of `SliceMap.__getitem__`:
`bisect_right` for `include="start"`, `bisect_left` for `include="end"`. -/
def searchOp {V : Type} (inc : Side) (l : List (Pair V)) (k : EKey) : Nat :=
  match inc with
  | .start => bisect_right l k
  | .«end» => bisect_left l k

/-- Models `SliceMap.__getitem__` for a scalar key.  The outer `Option` is `none`
exactly when Python would raise an `IndexError` (out-of-range indexing). -/
def getItem {V : Type} (m : SliceMap V) (key : EKey) : Option (Option V) :=
  if key = (⊤ : EKey) then (m.data.getLast?).map Pair.value
  else if key = (⊥ : EKey) then (m.data.head?).map Pair.value
  else (m.data[searchOp m.inc m.data key]?).map Pair.value

/-- Reads the values at the given positions; `none` models the
`IndexError` raised as soon as a position is out of range. -/
def collectVals {V : Type} (l : List (Pair V)) : List Nat → Option (List (Option V))
  | [] => some []
  | i :: is =>
    match l[i]? with
    | none => none
    | some p => (collectVals l is).map (fun vs => p.value :: vs)

/-- Models `SliceMap.__getitem__` for a slice key `kstart:kstop`: both bounds go
through the same per-policy search, and the values at positions
`idx1, …, idx2` (inclusive, i.e. Python's `range(idx1, idx2 + 1)`) are
returned.  A slice key never equals `±inf`, so the scalar special cases
of `__getitem__` do not fire here. -/
def getRange {V : Type} (m : SliceMap V) (kstart kstop : EKey) :
    Option (List (Option V)) :=
  let idx1 := searchOp m.inc m.data kstart
  let idx2 := searchOp m.inc m.data kstop
  collectVals m.data (List.range' idx1 (idx2 + 1 - idx1))

/-- Models `SliceMap.__len__`: number of entries minus the sentinel. -/
def len {V : Type} (m : SliceMap V) : Nat := m.data.length - 1

/-- The comprehension of `SliceMap.export`:
`[(p1.up_to_key, p2.up_to_key, p2.value) for p1, p2 in zip(data, data[1:])]`. -/
def exportPairs {V : Type} : Pair V → List (Pair V) → List (EKey × EKey × Option V)
  | _, [] => []
  | p, q :: rest => (p.up_to_key, q.up_to_key, q.value) :: exportPairs q rest

/-- Models `SliceMap.export`: the triple `(-inf, data[0].up_to_key, data[0].value)`
followed by the zipped triples.  (On an empty entry list Python's
`data[0]` would raise; reachable maps are never empty, so the `[]`
branch is never exercised.)  `export` is a Lean keyword, hence the name. -/
def export_ {V : Type} (m : SliceMap V) : List (EKey × EKey × Option V) :=
  match m.data with
  | [] => []
  | p :: rest => ((⊥ : EKey), p.up_to_key, p.value) :: exportPairs p rest

end SliceMap

/-- States of the container actually reachable through the public
interface: a freshly constructed map followed by any finite sequence of
`assign` (`__setitem__`) calls. -/
inductive Reachable {V : Type} : SliceMap V → Prop
  | init (inc : Side) : Reachable (SliceMap.init V inc)
  | step {m : SliceMap V} (start stop : EKey) (value : Option V) :
      Reachable m → Reachable (m.setItem start stop value)

/-- Strict ordering of entries by their upper bound. -/
def keyLT {V : Type} (p q : Pair V) : Prop := p.up_to_key < q.up_to_key

/-- The container invariant: entries strictly sorted by `up_to_key`,
and the `+inf` sentinel present. -/
def SMInv {V : Type} (m : SliceMap V) : Prop :=
  m.data.Pairwise keyLT ∧ ∃ p ∈ m.data, p.up_to_key = (⊤ : EKey)

/-! ## Generic list lemmas -/

theorem getElem?_takeWhile_length {α : Type} (p : α → Bool) (l : List α) :
    l[(l.takeWhile p).length]? = (l.dropWhile p).head? := by
  calc l[(l.takeWhile p).length]?
      = (l.takeWhile p ++ l.dropWhile p)[(l.takeWhile p).length]? := by
        rw [List.takeWhile_append_dropWhile]
    _ = (l.dropWhile p)[(l.takeWhile p).length - (l.takeWhile p).length]? :=
        List.getElem?_append_right le_rfl
    _ = (l.dropWhile p)[0]? := by simp
    _ = (l.dropWhile p).head? := (List.head?_eq_getElem? _).symm

theorem take_takeWhile_length {α : Type} (p : α → Bool) (l : List α) :
    l.take (l.takeWhile p).length = l.takeWhile p := by
  calc l.take (l.takeWhile p).length
      = (l.takeWhile p ++ l.dropWhile p).take (l.takeWhile p).length := by
        rw [List.takeWhile_append_dropWhile]
    _ = l.takeWhile p := List.take_left _ _

theorem drop_takeWhile_length {α : Type} (p : α → Bool) (l : List α) :
    l.drop (l.takeWhile p).length = l.dropWhile p := by
  calc l.drop (l.takeWhile p).length
      = (l.takeWhile p ++ l.dropWhile p).drop (l.takeWhile p).length := by
        rw [List.takeWhile_append_dropWhile]
    _ = l.dropWhile p := List.drop_left _ _

theorem head?_dropWhile_eq_false {α : Type} (p : α → Bool) :
    ∀ {l : List α} {b : α}, (l.dropWhile p).head? = some b → p b = false := by
  intro l
  induction l with
  | nil => intro b h; simp at h
  | cons a l ih =>
    intro b h
    rw [List.dropWhile_cons] at h
    by_cases ha : p a = true
    · exact ih (by simpa [ha] using h)
    · have hab : a = b := by
        rw [if_neg ha] at h
        simpa using h
      subst hab
      simpa using ha

theorem length_takeWhile_le_of_imp {α : Type} {p q : α → Bool}
    (h : ∀ a, p a = true → q a = true) (l : List α) :
    (l.takeWhile p).length ≤ (l.takeWhile q).length := by
  induction l with
  | nil => simp
  | cons a l ih =>
    rw [List.takeWhile_cons, List.takeWhile_cons]
    by_cases hp : p a = true
    · rw [if_pos hp, if_pos (h a hp)]
      simpa using ih
    · rw [if_neg hp]
      simp

theorem length_takeWhile_lt_of_mem {α : Type} {p : α → Bool} {x : α} {l : List α}
    (hx : x ∈ l) (hpx : p x = false) :
    (l.takeWhile p).length < l.length := by
  induction l with
  | nil => cases hx
  | cons a l ih =>
    rw [List.takeWhile_cons]
    by_cases hp : p a = true
    · rw [if_pos hp]
      have hxl : x ∈ l := by
        rcases List.mem_cons.mp hx with h | h
        · rw [← h] at hp; rw [hp] at hpx; cases hpx
        · exact h
      simpa using Nat.succ_lt_succ (ih hxl)
    · rw [if_neg hp]
      simp

theorem dropWhile_ne_nil_of_mem {α : Type} {p : α → Bool} {x : α} {l : List α}
    (hx : x ∈ l) (hpx : p x = false) :
    l.dropWhile p ≠ [] := by
  intro h
  have := List.dropWhile_eq_nil_iff.mp h x hx
  rw [hpx] at this
  cases this

theorem dropWhile_append_all {α : Type} {p : α → Bool} {xs ys : List α}
    (h : ∀ a ∈ xs, p a = true) :
    (xs ++ ys).dropWhile p = ys.dropWhile p := by
  rw [List.dropWhile_append, if_pos]
  rw [List.isEmpty_iff, List.dropWhile_eq_nil_iff]
  exact h

theorem dropWhile_append_ne_nil {α : Type} {p : α → Bool} {xs ys : List α}
    (h : xs.dropWhile p ≠ []) :
    (xs ++ ys).dropWhile p = xs.dropWhile p ++ ys := by
  rw [List.dropWhile_append, if_neg]
  simpa [List.isEmpty_iff] using h

theorem takeWhile_append_all {α : Type} {p : α → Bool} {xs ys : List α}
    (h : ∀ a ∈ xs, p a = true) :
    (xs ++ ys).takeWhile p = xs ++ ys.takeWhile p := by
  rw [List.takeWhile_append, if_pos]
  congr 1
  exact List.takeWhile_eq_self_iff.mpr h

theorem dropWhile_dropWhile {α : Type} (p : α → Bool) (l : List α) :
    (l.dropWhile p).dropWhile p = l.dropWhile p := by
  cases h : l.dropWhile p with
  | nil => rfl
  | cons d D =>
    have hd : p d = false := head?_dropWhile_eq_false p (by rw [h]; rfl)
    rw [List.dropWhile_cons, if_neg (by simp [hd])]

/-! ## The shape of the entry list after an assignment -/

theorem addPair_append {V : Type} (A B : List (Pair V)) (p : Pair V)
    (hA : ∀ a ∈ A, a.up_to_key ≤ p.up_to_key)
    (hB : ∀ b, B.head? = some b → p.up_to_key < b.up_to_key) :
    addPair (A ++ B) p = A ++ p :: B := by
  induction A with
  | nil =>
    cases B with
    | nil => rfl
    | cons b B' =>
      have hb := hB b rfl
      simp [addPair, not_le.mpr hb]
  | cons a A' ih =>
    have ha := hA a (by simp)
    have ih' := ih (fun a h => hA a (List.mem_cons_of_mem _ h))
    simp only [List.cons_append, addPair, if_pos ha]
    rw [show A'.append B = A' ++ B from rfl, ih']

theorem takeWhile_lt_bot {V : Type} (l : List (Pair V)) :
    l.takeWhile (fun p => p.up_to_key < (⊥ : EKey)) = [] := by
  cases l with
  | nil => rfl
  | cons a l =>
    rw [List.takeWhile_cons, if_neg]
    simp [not_lt_bot]

/-- The value that `__setitem__` preserves at the lower boundary: the value
of the first entry with `up_to_key ≥ start` (absent when there is none). -/
def oldOf {V : Type} (l : List (Pair V)) (start : EKey) : Option V :=
  match (l.dropWhile (fun p => p.up_to_key < start)).head? with
  | some p => p.value
  | none => none

/-- The central shape lemma: for a non-empty range, the entry list after
`__setitem__` is the entries strictly below `start`, the re-inserted
boundary entry at `start` (when `start` is finite), the new entry at
`stop`, and the entries strictly above `stop`. -/
theorem setItem_data {V : Type} (m : SliceMap V) (start stop : EKey) (v : Option V)
    (h : start < stop) :
    (m.setItem start stop v).data =
      m.data.takeWhile (fun p => p.up_to_key < start)
        ++ (if (⊥ : EKey) < start then [⟨start, oldOf m.data start⟩] else [])
        ++ ⟨stop, v⟩ :: m.data.dropWhile (fun p => p.up_to_key ≤ stop) := by
  unfold SliceMap.setItem
  rw [if_neg (not_le.mpr h)]
  simp only [bisect_left, bisect_right, take_takeWhile_length, drop_takeWhile_length,
    getElem?_takeWhile_length]
  set A := m.data.takeWhile (fun p => p.up_to_key < start) with hAdef
  set B := m.data.dropWhile (fun p => p.up_to_key ≤ stop) with hBdef
  have hAmem : ∀ a ∈ A, a.up_to_key < start := by
    intro a ha
    have := List.mem_takeWhile_imp ha
    exact of_decide_eq_true this
  have hBmem : ∀ b, B.head? = some b → stop < b.up_to_key := by
    intro b hb
    have := head?_dropWhile_eq_false _ hb
    exact not_le.mp (by simpa using this)
  have holdOf :
      (match (m.data.dropWhile (fun p => p.up_to_key < start)).head? with
        | some p => p.value
        | none => none) = oldOf m.data start := rfl
  by_cases hbot : (⊥ : EKey) < start
  · rw [if_pos hbot, if_pos hbot]
    have h1 : addPair (A ++ B) ⟨start, oldOf m.data start⟩ =
        A ++ ⟨start, oldOf m.data start⟩ :: B := by
      apply addPair_append
      · exact fun a ha => le_of_lt (hAmem a ha)
      · exact fun b hb => lt_trans h (hBmem b hb)
    rw [holdOf, h1]
    have h2 : addPair ((A ++ [⟨start, oldOf m.data start⟩]) ++ B) ⟨stop, v⟩ =
        (A ++ [⟨start, oldOf m.data start⟩]) ++ ⟨stop, v⟩ :: B := by
      apply addPair_append
      · intro a ha
        rcases List.mem_append.mp ha with ha | ha
        · exact le_of_lt (lt_trans (hAmem a ha) h)
        · simp at ha
          rw [ha]
          exact le_of_lt h
      · exact fun b hb => hBmem b hb
    rw [show A ++ ⟨start, oldOf m.data start⟩ :: B =
          (A ++ [⟨start, oldOf m.data start⟩]) ++ B by simp, h2]
  · rw [if_neg hbot, if_neg hbot]
    have hstart : start = (⊥ : EKey) := le_bot_iff.mp (not_lt.mp hbot)
    have hAnil : A = [] := by rw [hAdef, hstart]; exact takeWhile_lt_bot _
    rw [hAnil]
    have h1 : addPair ([] ++ B) ⟨stop, v⟩ = [] ++ ⟨stop, v⟩ :: B := by
      apply addPair_append
      · intro a ha; cases ha
      · exact fun b hb => hBmem b hb
    simpa using h1

/-- An empty or inverted range makes `__setitem__` a no-op. -/
theorem setItem_of_ge {V : Type} (m : SliceMap V) (start stop : EKey) (v : Option V)
    (h : stop ≤ start) :
    m.setItem start stop v = m := by
  unfold SliceMap.setItem
  rw [if_pos h]

/-! ## Preservation of the container invariant -/

theorem mem_dropWhile_gt {V : Type} {l : List (Pair V)} (hP : l.Pairwise keyLT)
    (c : EKey) :
    ∀ b ∈ l.dropWhile (fun p => p.up_to_key ≤ c), c < b.up_to_key := by
  induction l with
  | nil => intro b hb; cases hb
  | cons a l ih =>
    intro b hb
    rw [List.dropWhile_cons] at hb
    by_cases ha : a.up_to_key ≤ c
    · rw [if_pos (by simpa using ha)] at hb
      exact ih hP.of_cons b hb
    · rw [if_neg (by simpa using ha)] at hb
      rcases List.mem_cons.mp hb with h | h
      · rw [h]; exact not_le.mp ha
      · exact lt_trans (not_le.mp ha) ((List.pairwise_cons.mp hP).1 b h)

theorem SMInv_setItem {V : Type} {m : SliceMap V} (hI : SMInv m)
    (start stop : EKey) (v : Option V) :
    SMInv (m.setItem start stop v) := by
  by_cases h : start < stop
  · obtain ⟨hP, psent, hpmem, hpkey⟩ := hI
    rw [SMInv, setItem_data m start stop v h]
    set A := m.data.takeWhile (fun p => p.up_to_key < start) with hAdef
    set B := m.data.dropWhile (fun p => p.up_to_key ≤ stop) with hBdef
    set MID := (if (⊥ : EKey) < start then [(⟨start, oldOf m.data start⟩ : Pair V)] else [])
      with hMIDdef
    have hA : ∀ a ∈ A, a.up_to_key < start := by
      intro a ha
      rw [hAdef] at ha
      exact of_decide_eq_true
        (@List.mem_takeWhile_imp _ (fun p => decide (p.up_to_key < start)) m.data a ha)
    have hB : ∀ b ∈ B, stop < b.up_to_key := by
      intro b hb
      rw [hBdef] at hb
      exact mem_dropWhile_gt hP stop b hb
    have hAsub : A.Sublist m.data := by rw [hAdef]; exact List.takeWhile_sublist _
    have hBsub : B.Sublist m.data := by rw [hBdef]; exact List.dropWhile_sublist _
    have hMID : ∀ x ∈ MID, x.up_to_key = start := by
      intro x hx
      rw [hMIDdef] at hx
      split at hx
      · simp at hx; rw [hx]
      · cases hx
    constructor
    · rw [List.pairwise_append]
      refine ⟨?_, ?_, ?_⟩
      · rw [List.pairwise_append]
        refine ⟨List.Pairwise.sublist hAsub hP, ?_, ?_⟩
        · rw [hMIDdef]; split <;> simp
        · intro a ha y hy
          rw [keyLT, hMID y hy]
          exact hA a ha
      · rw [List.pairwise_cons]
        exact ⟨fun b hb => hB b hb, List.Pairwise.sublist hBsub hP⟩
      · intro x hx y hy
        rcases List.mem_append.mp hx with hx | hx
        · rcases List.mem_cons.mp hy with hy | hy
          · rw [keyLT, hy]; exact lt_trans (hA x hx) h
          · exact lt_trans (lt_trans (hA x hx) h) (hB y hy)
        · rcases List.mem_cons.mp hy with hy | hy
          · rw [keyLT, hMID x hx, hy]; exact h
          · rw [keyLT, hMID x hx]; exact lt_trans h (hB y hy)
    · by_cases hstop : stop = (⊤ : EKey)
      · exact ⟨⟨stop, v⟩, by simp, hstop⟩
      · have hstop' : stop < (⊤ : EKey) := lt_of_le_of_ne le_top hstop
        have hsplit := List.takeWhile_append_dropWhile
          (fun p => decide (p.up_to_key ≤ stop)) m.data
        have hpB : psent ∈ B := by
          rw [← hsplit] at hpmem
          rcases List.mem_append.mp hpmem with hmem | hmem
          · have := of_decide_eq_true
              (@List.mem_takeWhile_imp _ (fun p => decide (p.up_to_key ≤ stop)) m.data
                psent hmem)
            rw [hpkey] at this
            exact absurd this (not_le.mpr hstop')
          · exact hmem
        exact ⟨psent, by simp [hpB], hpkey⟩
  · rw [setItem_of_ge _ _ _ _ (not_lt.mp h)]
    exact hI

theorem reachable_SMInv {V : Type} {m : SliceMap V} (hR : Reachable m) : SMInv m := by
  induction hR with
  | init inc =>
    exact ⟨by simp [SliceMap.init], ⟨⊤, none⟩, by simp [SliceMap.init], rfl⟩
  | step s t v hR ih => exact SMInv_setItem ih s t v

/-! ## Characterizing the point query -/

/-- The per-policy Boolean predicate whose `takeWhile` length is the
search index of `__getitem__`. -/
def qPred {V : Type} (inc : Side) (k : EKey) : Pair V → Bool :=
  match inc with
  | .start => fun p => p.up_to_key ≤ k
  | .«end» => fun p => p.up_to_key < k

theorem searchOp_eq_qPred {V : Type} (inc : Side) (l : List (Pair V)) (k : EKey) :
    SliceMap.searchOp inc l k = (l.takeWhile (qPred inc k)).length := by
  cases inc <;> rfl

theorem qPred_eq_false_of_lt {V : Type} (inc : Side) {k : EKey} {b : Pair V}
    (h : k < b.up_to_key) :
    qPred inc k b = false := by
  cases inc
  · simp only [qPred, decide_eq_false_iff_not]; exact not_le.mpr h
  · simp only [qPred, decide_eq_false_iff_not]; exact lt_asymm h

theorem qPred_eq_true_of_lt {V : Type} (inc : Side) {k : EKey} {b : Pair V}
    (h : b.up_to_key < k) :
    qPred inc k b = true := by
  cases inc
  · simp only [qPred, decide_eq_true_eq]; exact le_of_lt h
  · simp only [qPred, decide_eq_true_eq]; exact h

theorem getItem_fin {V : Type} (m : SliceMap V) {k : EKey}
    (h1 : (⊥ : EKey) < k) (h2 : k < (⊤ : EKey)) :
    m.getItem k = ((m.data.dropWhile (qPred m.inc k)).head?).map Pair.value := by
  unfold SliceMap.getItem
  rw [if_neg (ne_of_lt h2), if_neg (ne_of_gt h1), searchOp_eq_qPred,
    getElem?_takeWhile_length]

theorem setItem_inc {V : Type} (m : SliceMap V) (s t : EKey) (v : Option V) :
    (m.setItem s t v).inc = m.inc := by
  unfold SliceMap.setItem
  split <;> rfl

theorem bot_lt_fin (q : ℚ) : (⊥ : EKey) < EKey.fin q := WithBot.bot_lt_coe _

theorem fin_lt_top (q : ℚ) : EKey.fin q < (⊤ : EKey) := by
  have h : ((⊤ : WithTop ℚ) : EKey) = (⊤ : EKey) := rfl
  rw [← h, EKey.fin]
  exact WithBot.coe_lt_coe.mpr (WithTop.coe_lt_top q)

/-- Under the invariant and a finite-or-`-inf` lower bound, the entry whose
value `__setitem__` preserves exists: it is the head of the entries at or
above `start`. -/
theorem oldOf_head {V : Type} {m : SliceMap V} (hI : SMInv m) (start : EKey) :
    ∃ d, (m.data.dropWhile (fun p => p.up_to_key < start)).head? = some d ∧
      start ≤ d.up_to_key ∧ oldOf m.data start = d.value := by
  obtain ⟨_, psent, hpmem, hpkey⟩ := hI
  have hne : m.data.dropWhile (fun p => p.up_to_key < start) ≠ [] := by
    apply dropWhile_ne_nil_of_mem hpmem
    rw [decide_eq_false_iff_not, hpkey]
    exact not_top_lt
  obtain ⟨d, D, hD⟩ := List.exists_cons_of_ne_nil hne
  refine ⟨d, by rw [hD]; rfl, ?_, ?_⟩
  · have := head?_dropWhile_eq_false _ (show _ = some d by rw [hD]; rfl)
    exact not_lt.mp (by simpa using this)
  · simp [oldOf, hD]

/-- C1, proved below: after `assign(s, t, v)`, point queries strictly
inside `(s, t)` read the new value, and point queries strictly outside
read exactly what they read before. -/
theorem assign_inside_outside {V : Type} (m : SliceMap V) (hR : Reachable m)
    (s t : EKey) (v : Option V) (hst : s < t) :
    (∀ q : ℚ, s < EKey.fin q → EKey.fin q < t →
        (m.setItem s t v).getItem (EKey.fin q) = some v) ∧
    (∀ q : ℚ, EKey.fin q < s ∨ t < EKey.fin q →
        (m.setItem s t v).getItem (EKey.fin q) = m.getItem (EKey.fin q)) := by
  have hI := reachable_SMInv hR
  have hshape := setItem_data m s t v hst
  constructor
  · intro q hqs hqt
    rw [getItem_fin _ (bot_lt_fin q) (fin_lt_top q), hshape, setItem_inc]
    have hall : ∀ a ∈ m.data.takeWhile (fun p => p.up_to_key < s)
        ++ (if (⊥ : EKey) < s then [(⟨s, oldOf m.data s⟩ : Pair V)] else []),
        qPred m.inc (EKey.fin q) a = true := by
      intro a ha
      rcases List.mem_append.mp ha with ha | ha
      · exact qPred_eq_true_of_lt _ (lt_trans (of_decide_eq_true
          (@List.mem_takeWhile_imp _ (fun p => decide (p.up_to_key < s)) m.data a ha)) hqs)
      · by_cases hsbot : (⊥ : EKey) < s
        · rw [if_pos hsbot] at ha
          simp at ha
          exact qPred_eq_true_of_lt _ (by rw [ha]; exact hqs)
        · rw [if_neg hsbot] at ha; cases ha
    have hfalse : qPred m.inc (EKey.fin q) (⟨t, v⟩ : Pair V) = false :=
      qPred_eq_false_of_lt _ hqt
    rw [dropWhile_append_all hall, List.dropWhile_cons, if_neg (by simp [hfalse])]
    simp
  · intro q hq
    rw [getItem_fin _ (bot_lt_fin q) (fin_lt_top q), hshape, setItem_inc,
      getItem_fin m (bot_lt_fin q) (fin_lt_top q)]
    rcases hq with hq | hq
    · have hsbot : (⊥ : EKey) < s := lt_trans (bot_lt_fin q) hq
      rw [if_pos hsbot]
      obtain ⟨d, hdhead, hdge, hdold⟩ := oldOf_head hI s
      obtain ⟨D', hD'⟩ : ∃ D',
          m.data.dropWhile (fun p => p.up_to_key < s) = d :: D' := by
        cases hcase : m.data.dropWhile (fun p => p.up_to_key < s) with
        | nil => rw [hcase] at hdhead; cases hdhead
        | cons x xs =>
          rw [hcase] at hdhead
          simp at hdhead
          exact ⟨xs, by rw [hdhead]⟩
      have hmsplit : m.data = m.data.takeWhile (fun p => p.up_to_key < s) ++ (d :: D') := by
        rw [← hD']
        exact (List.takeWhile_append_dropWhile _ _).symm
      have hassoc : (m.data.takeWhile (fun p => p.up_to_key < s)
            ++ [(⟨s, oldOf m.data s⟩ : Pair V)])
            ++ ⟨t, v⟩ :: m.data.dropWhile (fun p => p.up_to_key ≤ t)
          = m.data.takeWhile (fun p => p.up_to_key < s)
            ++ (⟨s, oldOf m.data s⟩ :: ⟨t, v⟩
              :: m.data.dropWhile (fun p => p.up_to_key ≤ t)) := by simp
      rw [hassoc]
      by_cases hA0 : (m.data.takeWhile (fun p => p.up_to_key < s)).dropWhile
          (qPred m.inc (EKey.fin q)) = []
      · have hallA := List.dropWhile_eq_nil_iff.mp hA0
        rw [dropWhile_append_all hallA]
        have hfs : qPred m.inc (EKey.fin q) (⟨s, oldOf m.data s⟩ : Pair V) = false :=
          qPred_eq_false_of_lt _ hq
        rw [List.dropWhile_cons, if_neg (by simp [hfs])]
        conv_rhs => rw [hmsplit]
        rw [dropWhile_append_all hallA]
        have hfd : qPred m.inc (EKey.fin q) d = false :=
          qPred_eq_false_of_lt _ (lt_of_lt_of_le hq hdge)
        rw [List.dropWhile_cons, if_neg (by simp [hfd])]
        simp [hdold]
      · rw [dropWhile_append_ne_nil hA0]
        conv_rhs => rw [hmsplit]
        rw [dropWhile_append_ne_nil hA0]
        obtain ⟨x, xs, hx⟩ := List.exists_cons_of_ne_nil hA0
        rw [hx]
        simp
    · have hall1 : ∀ a ∈ m.data.takeWhile (fun p => p.up_to_key < s)
          ++ (if (⊥ : EKey) < s then [(⟨s, oldOf m.data s⟩ : Pair V)] else []),
          qPred m.inc (EKey.fin q) a = true := by
        intro a ha
        rcases List.mem_append.mp ha with ha | ha
        · exact qPred_eq_true_of_lt _ (lt_trans (lt_trans (of_decide_eq_true
            (@List.mem_takeWhile_imp _ (fun p => decide (p.up_to_key < s)) m.data a ha))
            hst) hq)
        · by_cases hsbot : (⊥ : EKey) < s
          · rw [if_pos hsbot] at ha
            simp at ha
            exact qPred_eq_true_of_lt _ (by rw [ha]; exact lt_trans hst hq)
          · rw [if_neg hsbot] at ha; cases ha
      rw [dropWhile_append_all hall1, List.dropWhile_cons,
        if_pos (qPred_eq_true_of_lt m.inc hq)]
      conv_rhs => rw [← List.takeWhile_append_dropWhile
        (fun p => decide (p.up_to_key ≤ t)) m.data]
      have hall2 : ∀ a ∈ m.data.takeWhile (fun p => p.up_to_key ≤ t),
          qPred m.inc (EKey.fin q) a = true := by
        intro a ha
        exact qPred_eq_true_of_lt _ (lt_of_le_of_lt (of_decide_eq_true
          (@List.mem_takeWhile_imp _ (fun p => decide (p.up_to_key ≤ t)) m.data a ha)) hq)
      rw [dropWhile_append_all hall2]

/-! ## Idempotence of assignment -/

/-- Assigning the same range and value twice leaves the entry list of the
first assignment unchanged — for every state, reachable or not. -/
theorem setItem_setItem_data {V : Type} (m : SliceMap V) (s t : EKey) (v : Option V) :
    ((m.setItem s t v).setItem s t v).data = (m.setItem s t v).data := by
  by_cases h : s < t
  · rw [setItem_data (m.setItem s t v) s t v h, setItem_data m s t v h]
    by_cases hsbot : (⊥ : EKey) < s
    · simp only [if_pos hsbot]
      set A := m.data.takeWhile (fun p => p.up_to_key < s) with hAdef
      set B := m.data.dropWhile (fun p => p.up_to_key ≤ t) with hBdef
      set old := oldOf m.data s with holddef
      set M := A ++ [(⟨s, old⟩ : Pair V)] ++ ⟨t, v⟩ :: B with hMdef
      have hAmem : ∀ a ∈ A, decide (a.up_to_key < s) = true := by
        intro a ha
        rw [hAdef] at ha
        exact @List.mem_takeWhile_imp _ (fun p => decide (p.up_to_key < s)) m.data a ha
      have hABmem : ∀ a ∈ A ++ [(⟨s, old⟩ : Pair V)], decide (a.up_to_key ≤ t) = true := by
        intro a ha
        rcases List.mem_append.mp ha with ha | ha
        · simp only [decide_eq_true_eq]
          exact le_of_lt (lt_trans (of_decide_eq_true (hAmem a ha)) h)
        · simp only [List.mem_singleton] at ha
          rw [ha]
          simp only [decide_eq_true_eq]
          exact le_of_lt h
      have e1 : M.takeWhile (fun p => p.up_to_key < s) = A := by
        rw [hMdef, List.append_assoc, takeWhile_append_all hAmem, List.singleton_append,
          List.takeWhile_cons, if_neg (by simp)]
        simp
      have e2 : M.dropWhile (fun p => p.up_to_key < s) = ⟨s, old⟩ :: ⟨t, v⟩ :: B := by
        rw [hMdef, List.append_assoc, dropWhile_append_all hAmem, List.singleton_append,
          List.dropWhile_cons, if_neg (by simp)]
      have e3 : oldOf M s = old := by
        simp [oldOf, e2]
      have e4 : M.dropWhile (fun p => p.up_to_key ≤ t) = B := by
        rw [hMdef, dropWhile_append_all hABmem, List.dropWhile_cons,
          if_pos (by simp), hBdef]
        exact dropWhile_dropWhile _ _
      rw [e1, e3, e4]
    · simp only [if_neg hsbot]
      have hsb : s = (⊥ : EKey) := le_bot_iff.mp (not_lt.mp hsbot)
      subst hsb
      simp only [takeWhile_lt_bot, List.nil_append]
      rw [List.dropWhile_cons, if_pos (by simp), dropWhile_dropWhile]
  · rw [setItem_of_ge (m.setItem s t v) s t v (not_lt.mp h)]

/-! ## The export chain -/

/-- Predicate for C2: `ChainedFrom lo ts` says the triples `ts` tile the key line contiguously
from `lo` up to `+inf`: each triple's lower bound is the running bound, its
upper bound becomes the next running bound, and the chain ends at `+inf`. -/
def ChainedFrom {V : Type} : EKey → List (EKey × EKey × Option V) → Prop
  | lo, [] => lo = (⊤ : EKey)
  | lo, tr :: ts => tr.1 = lo ∧ ChainedFrom tr.2.1 ts

theorem export_eq_cons {V : Type} {m : SliceMap V} {p : Pair V} {rest : List (Pair V)}
    (hdata : m.data = p :: rest) :
    m.export_ = ((⊥ : EKey), p.up_to_key, p.value) :: SliceMap.exportPairs p rest := by
  unfold SliceMap.export_
  rw [hdata]

theorem chainedFrom_exportPairs {V : Type} :
    ∀ (rest : List (Pair V)) (p q : Pair V), (p :: rest).getLast? = some q →
      q.up_to_key = (⊤ : EKey) → ChainedFrom p.up_to_key (SliceMap.exportPairs p rest) := by
  intro rest
  induction rest with
  | nil =>
    intro p q hlast hq
    have hpq : p = q := by simpa using hlast
    simp only [SliceMap.exportPairs, ChainedFrom]
    rw [hpq]
    exact hq
  | cons r rest ih =>
    intro p q hlast hq
    rw [List.getLast?_cons_cons] at hlast
    simp only [SliceMap.exportPairs, ChainedFrom]
    exact ⟨trivial, ih r q hlast hq⟩

theorem sorted_getLast_top {V : Type} :
    ∀ {l : List (Pair V)}, l.Pairwise keyLT → ∀ p ∈ l, p.up_to_key = (⊤ : EKey) →
      ∃ q, l.getLast? = some q ∧ q.up_to_key = (⊤ : EKey) := by
  intro l
  induction l with
  | nil => intro _ p hp; cases hp
  | cons a l ih =>
    intro hP p hp hpkey
    cases l with
    | nil =>
      have hpa : p = a := List.mem_singleton.mp hp
      exact ⟨a, rfl, by rw [← hpa]; exact hpkey⟩
    | cons b l' =>
      rw [List.getLast?_cons_cons]
      have hpbl : p ∈ b :: l' := by
        rcases List.mem_cons.mp hp with hpa | hpl
        · have := (List.pairwise_cons.mp hP).1 b (by simp)
          rw [keyLT, ← hpa, hpkey] at this
          exact absurd this not_top_lt
        · exact hpl
      exact ih hP.of_cons p hpbl hpkey

theorem export_chains {V : Type} {m : SliceMap V} (hI : SMInv m) :
    ChainedFrom (⊥ : EKey) m.export_ := by
  obtain ⟨hP, psent, hpmem, hpkey⟩ := hI
  obtain ⟨q, hlast, hq⟩ := sorted_getLast_top hP psent hpmem hpkey
  cases hdata : m.data with
  | nil => rw [hdata] at hpmem; cases hpmem
  | cons p rest =>
    rw [export_eq_cons hdata]
    rw [hdata] at hlast
    simp only [ChainedFrom]
    exact ⟨trivial, chainedFrom_exportPairs rest p q hlast hq⟩

/-! ## Counting sentinels -/

theorem countP_top_eq_one {V : Type} :
    ∀ {l : List (Pair V)}, l.Pairwise keyLT → ∀ p ∈ l, p.up_to_key = (⊤ : EKey) →
      l.countP (fun x => x.up_to_key = (⊤ : EKey)) = 1 := by
  intro l
  induction l with
  | nil => intro _ p hp; cases hp
  | cons a l ih =>
    intro hP p hp hpkey
    rw [List.countP_cons]
    by_cases ha : a.up_to_key = (⊤ : EKey)
    · have hl0 : l.countP (fun x => decide (x.up_to_key = (⊤ : EKey))) = 0 := by
        rw [List.countP_eq_zero]
        intro b hb
        simp only [decide_eq_true_eq]
        intro hb_top
        have := (List.pairwise_cons.mp hP).1 b hb
        rw [keyLT, ha, hb_top] at this
        exact lt_irrefl _ this
      rw [hl0]
      simp [ha]
    · have hpl : p ∈ l := by
        rcases List.mem_cons.mp hp with h | h
        · rw [h] at hpkey; exact absurd hpkey ha
        · exact h
      rw [ih hP.of_cons p hpl hpkey]
      simp [ha]

theorem setItem_top_getLast {V : Type} (m : SliceMap V) {s : EKey}
    (hs : s < (⊤ : EKey)) (v : Option V) :
    (m.setItem s ⊤ v).data.getLast? = some ⟨(⊤ : EKey), v⟩ := by
  rw [setItem_data m s ⊤ v hs]
  have hB : m.data.dropWhile (fun p => p.up_to_key ≤ (⊤ : EKey)) = [] := by
    rw [List.dropWhile_eq_nil_iff]
    intro x _
    simp [le_top]
  rw [hB]
  exact List.getLast?_concat _

/-! ## Claim theorems C2–C8 (with C1 above) -/

/-- C2: after any finite sequence of assigns from a fresh map, the entry
sequence is strictly sorted by upper bound (hence no duplicate upper
bounds), and `export()` yields triples that chain exactly from `-inf` to
`+inf` with no gaps or overlaps. -/
theorem reachable_sorted_chained {V : Type} (m : SliceMap V) (hR : Reachable m) :
    m.data.Pairwise keyLT ∧ ChainedFrom (⊥ : EKey) m.export_ :=
  ⟨(reachable_SMInv hR).1, export_chains (reachable_SMInv hR)⟩

/-- Witness for C2 at a freshly constructed map. -/
theorem reachable_sorted_chained_witness :
    (SliceMap.init Bool Side.start).data.Pairwise keyLT ∧
      ChainedFrom (⊥ : EKey) (SliceMap.init Bool Side.start).export_ :=
  reachable_sorted_chained _ (Reachable.init _)

/-- C6: on every reachable state, both the per-policy search index of a
finite key is strictly below the number of stored entries, and the point
query returns a value (no `IndexError`). -/
theorem get_total {V : Type} (m : SliceMap V) (hR : Reachable m) (q : ℚ) :
    SliceMap.searchOp m.inc m.data (EKey.fin q) < m.data.length ∧
      ∃ r, m.getItem (EKey.fin q) = some r := by
  obtain ⟨hP, psent, hpmem, hpkey⟩ := reachable_SMInv hR
  have hpq : qPred m.inc (EKey.fin q) psent = false :=
    qPred_eq_false_of_lt _ (by rw [hpkey]; exact fin_lt_top q)
  constructor
  · rw [searchOp_eq_qPred]
    exact length_takeWhile_lt_of_mem hpmem hpq
  · rw [getItem_fin m (bot_lt_fin q) (fin_lt_top q)]
    have hne := dropWhile_ne_nil_of_mem hpmem hpq
    obtain ⟨d, D, hD⟩ := List.exists_cons_of_ne_nil hne
    exact ⟨d.value, by rw [hD]; rfl⟩

/-- Witness for C6 at a freshly constructed map and key 0. -/
theorem get_total_witness :
    SliceMap.searchOp (SliceMap.init Bool Side.start).inc
        (SliceMap.init Bool Side.start).data (EKey.fin 0)
      < (SliceMap.init Bool Side.start).data.length ∧
      ∃ r, (SliceMap.init Bool Side.start).getItem (EKey.fin 0) = some r :=
  get_total _ (Reachable.init _) 0

/-- C7: every reachable state holds exactly one `+inf` sentinel entry, and
an assign with upper bound `+inf` leaves the sentinel in place as the last
entry, now carrying the assigned value, still with no duplicate. -/
theorem sentinel_invariant {V : Type} (m : SliceMap V) (hR : Reachable m) :
    m.data.countP (fun p => p.up_to_key = (⊤ : EKey)) = 1 ∧
    ∀ (s : EKey) (v : Option V), s < (⊤ : EKey) →
      (m.setItem s ⊤ v).data.getLast? = some ⟨(⊤ : EKey), v⟩ ∧
      (m.setItem s ⊤ v).data.countP (fun p => p.up_to_key = (⊤ : EKey)) = 1 := by
  obtain ⟨hP, psent, hpmem, hpkey⟩ := reachable_SMInv hR
  constructor
  · exact countP_top_eq_one hP psent hpmem hpkey
  · intro s v hs
    obtain ⟨hP', p', hp'mem, hp'key⟩ := SMInv_setItem ⟨hP, psent, hpmem, hpkey⟩ s ⊤ v
    exact ⟨setItem_top_getLast m hs v, countP_top_eq_one hP' p' hp'mem hp'key⟩

/-- Witness for C7 on a fresh map, assigning `[0, inf)`. -/
theorem sentinel_invariant_witness :
    (SliceMap.init Bool Side.start).data.countP
        (fun p => p.up_to_key = (⊤ : EKey)) = 1 ∧
      ((SliceMap.init Bool Side.start).setItem (EKey.fin 0) ⊤ (some true)).data.getLast?
        = some ⟨(⊤ : EKey), some true⟩ ∧
      ((SliceMap.init Bool Side.start).setItem (EKey.fin 0) ⊤ (some true)).data.countP
        (fun p => p.up_to_key = (⊤ : EKey)) = 1 :=
  ⟨(sentinel_invariant _ (Reachable.init _)).1,
    ((sentinel_invariant _ (Reachable.init _)).2 (EKey.fin 0) (some true) (fin_lt_top 0)).1,
    ((sentinel_invariant _ (Reachable.init _)).2 (EKey.fin 0) (some true) (fin_lt_top 0)).2⟩

/-- C5: assigning the same range and value twice yields the same `export()`
as assigning it once — for every container state, without restriction. -/
theorem assign_twice_export {V : Type} (m : SliceMap V) (s t : EKey) (v : Option V) :
    ((m.setItem s t v).setItem s t v).export_ = (m.setItem s t v).export_ := by
  unfold SliceMap.export_
  rw [setItem_setItem_data m s t v]

/-- C8: an empty or inverted range (`lowerBound ≥ upperBound`) makes
`assign` a no-op: `export()` is unchanged. -/
theorem empty_range_noop {V : Type} (m : SliceMap V) (s t : EKey) (v : Option V)
    (h : s ≥ t) :
    (m.setItem s t v).export_ = m.export_ := by
  rw [setItem_of_ge m s t v h]

/-- Witness for C8: assigning the empty range `[10, 10)` on a fresh map. -/
theorem empty_range_noop_witness :
    ((SliceMap.init Bool Side.start).setItem (EKey.fin 10) (EKey.fin 10)
        (some true)).export_ = (SliceMap.init Bool Side.start).export_ :=
  empty_range_noop _ _ _ _ le_rfl

/-! ## Concrete examples: C3 and C4 -/

/-- C3: from a fresh map (either policy), after `assign([0,10), "a")`,
`assign([10,20), "b")`, `assign([5,15), "c")`, the export is exactly the
five chained triples of the specification and `size()` is 4. -/
theorem split_example (inc : Side) :
    ((((SliceMap.init String inc).setItem (EKey.fin 0) (EKey.fin 10) (some "a")).setItem
        (EKey.fin 10) (EKey.fin 20) (some "b")).setItem (EKey.fin 5) (EKey.fin 15)
        (some "c")).export_ =
      [((⊥ : EKey), EKey.fin 0, none), (EKey.fin 0, EKey.fin 5, some "a"),
        (EKey.fin 5, EKey.fin 15, some "c"), (EKey.fin 15, EKey.fin 20, some "b"),
        (EKey.fin 20, (⊤ : EKey), none)] ∧
    ((((SliceMap.init String inc).setItem (EKey.fin 0) (EKey.fin 10) (some "a")).setItem
        (EKey.fin 10) (EKey.fin 20) (some "b")).setItem (EKey.fin 5) (EKey.fin 15)
        (some "c")).len = 4 := by
  cases inc <;> exact ⟨by decide, by decide⟩

/-- C4: after `assign([0,10), "a")` and `assign([10,20), "b")`, the
boundary key 10 reads `"b"` under policy `start` and `"a"` under policy
`end`. -/
theorem boundary_policy_example :
    (((SliceMap.init String Side.start).setItem (EKey.fin 0) (EKey.fin 10)
        (some "a")).setItem (EKey.fin 10) (EKey.fin 20) (some "b")).getItem (EKey.fin 10)
      = some (some "b") ∧
    (((SliceMap.init String Side.«end»).setItem (EKey.fin 0) (EKey.fin 10)
        (some "a")).setItem (EKey.fin 10) (EKey.fin 20) (some "b")).getItem (EKey.fin 10)
      = some (some "a") := by
  exact ⟨by decide, by decide⟩

/-! ## Range queries: C9 and C10 -/

theorem collectVals_spec {V : Type} (l : List (Pair V)) :
    ∀ idxs : List Nat, (∀ i ∈ idxs, i < l.length) →
      ∃ vs, SliceMap.collectVals l idxs = some vs ∧ vs.length = idxs.length ∧
        ∀ j, idxs.getLast? = some j → vs.getLast? = (l[j]?).map Pair.value := by
  intro idxs
  induction idxs with
  | nil => exact fun _ => ⟨[], rfl, rfl, fun j hj => by cases hj⟩
  | cons i is ih =>
    intro h
    have hi : i < l.length := h i (by simp)
    obtain ⟨p, hp⟩ : ∃ p, l[i]? = some p := ⟨_, List.getElem?_eq_getElem hi⟩
    obtain ⟨vs, hvs, hlen, hlast⟩ := ih (fun j hj => h j (List.mem_cons_of_mem _ hj))
    refine ⟨p.value :: vs, ?_, by simp [hlen], ?_⟩
    · show SliceMap.collectVals l (i :: is) = some (p.value :: vs)
      simp only [SliceMap.collectVals]
      rw [hp, hvs]
      rfl
    · intro j hj
      cases is with
      | nil =>
        have hvs' : vs = [] := by
          have : some ([] : List (Option V)) = some vs := by
            simpa [SliceMap.collectVals] using hvs
          simpa using this.symm
        have hji : j = i := by simpa using hj.symm
        rw [hvs', hji, hp]
        rfl
      | cons i2 is2 =>
        rw [List.getLast?_cons_cons] at hj
        have hvs_ne : vs ≠ [] := by
          intro hnil
          rw [hnil] at hlen
          simp at hlen
        obtain ⟨x, xs, hx⟩ := List.exists_cons_of_ne_nil hvs_ne
        rw [hx, List.getLast?_cons_cons, ← hx]
        exact hlast j hj

theorem qPred_mono {V : Type} (inc : Side) {lo hi : EKey} (h : lo ≤ hi) (a : Pair V)
    (ha : qPred inc lo a = true) : qPred inc hi a = true := by
  cases inc
  · simp only [qPred, decide_eq_true_eq] at ha ⊢
    exact le_trans ha h
  · simp only [qPred, decide_eq_true_eq] at ha ⊢
    exact lt_of_lt_of_le ha h

/-- The lists of every reachable state hold no `-inf` boundary: the code
only ever inserts a `start` entry when `start > -inf`, and a `stop` entry
with `stop > start ≥ -inf`. -/
theorem reachable_keys_pos {V : Type} {m : SliceMap V} (hR : Reachable m) :
    ∀ p ∈ m.data, (⊥ : EKey) < p.up_to_key := by
  induction hR with
  | init inc =>
    intro p hp
    simp [SliceMap.init] at hp
    rw [hp]
    show (⊥ : EKey) < (⊤ : EKey)
    decide
  | @step m s t v hR ih =>
    by_cases h : s < t
    · intro p hp
      rw [setItem_data m s t v h] at hp
      rcases List.mem_append.mp hp with hp | hp
      · rcases List.mem_append.mp hp with hp | hp
        · exact ih p ((List.takeWhile_sublist _).subset hp)
        · by_cases hsbot : (⊥ : EKey) < s
          · rw [if_pos hsbot] at hp
            simp at hp
            rw [hp]
            exact hsbot
          · rw [if_neg hsbot] at hp
            cases hp
      · rcases List.mem_cons.mp hp with hp | hp
        · rw [hp]
          exact lt_of_le_of_lt bot_le h
        · exact ih p ((List.dropWhile_sublist _).subset hp)
    · rw [setItem_of_ge _ _ _ _ (not_lt.mp h)]
      exact ih

theorem takeWhile_eq_nil_of_all_false {α : Type} {p : α → Bool} {l : List α}
    (h : ∀ a ∈ l, p a = false) : l.takeWhile p = [] := by
  cases l with
  | nil => rfl
  | cons a l => rw [List.takeWhile_cons, if_neg (by simp [h a (by simp)])]

/-- Under policy `end`, the search index of `+inf` is the position of the
sentinel — the last entry — so a range query with an open end stays in
bounds and surfaces the sentinel's value, which is also what the point
query at `+inf` reads. -/
theorem searchOp_end_top {V : Type} {m : SliceMap V} (hI : SMInv m)
    (hincend : m.inc = Side.«end») :
    SliceMap.searchOp m.inc m.data (⊤ : EKey) < m.data.length ∧
      (m.data[SliceMap.searchOp m.inc m.data (⊤ : EKey)]?).map Pair.value
        = m.getItem (⊤ : EKey) := by
  obtain ⟨hP, psent, hpmem, hpkey⟩ := hI
  have hne : m.data ≠ [] := List.ne_nil_of_mem hpmem
  obtain ⟨q, hqlast, hqkey⟩ := sorted_getLast_top hP psent hpmem hpkey
  have hq_eq : m.data.getLast hne = q := by
    have h' := List.getLast?_eq_getLast m.data hne
    rw [h'] at hqlast
    exact Option.some_inj.mp hqlast
  have hdecomp : m.data.dropLast ++ [q] = m.data := by
    rw [← hq_eq]
    exact List.dropLast_append_getLast hne
  have hallL : ∀ a ∈ m.data.dropLast, qPred m.inc (⊤ : EKey) a = true := by
    intro a ha
    have hPd : (m.data.dropLast ++ [q]).Pairwise keyLT := by
      rw [hdecomp]; exact hP
    have haq := (List.pairwise_append.mp hPd).2.2 a ha q (by simp)
    rw [hincend]
    simp only [qPred, decide_eq_true_eq]
    rw [← hqkey]
    exact haq
  have hqfalse : qPred m.inc (⊤ : EKey) q = false := by
    rw [hincend]
    simp [qPred, hqkey]
  constructor
  · rw [searchOp_eq_qPred]
    have htake : m.data.takeWhile (qPred m.inc (⊤ : EKey)) = m.data.dropLast := by
      conv_lhs => rw [← hdecomp]
      rw [takeWhile_append_all hallL, List.takeWhile_cons, if_neg (by simp [hqfalse])]
      simp
    rw [htake, List.length_dropLast]
    have : 0 < m.data.length := List.length_pos.mpr hne
    omega
  · rw [searchOp_eq_qPred, getElem?_takeWhile_length]
    have hdrop : m.data.dropWhile (qPred m.inc (⊤ : EKey)) = [q] := by
      conv_lhs => rw [← hdecomp]
      rw [dropWhile_append_all hallL, List.dropWhile_cons, if_neg (by simp [hqfalse])]
    rw [hdrop]
    unfold SliceMap.getItem
    rw [if_pos rfl, hqlast]
    rfl

/-- C9, amended: for every range query with ordered bounds — excluding
only the failing case of an `+inf` upper bound under policy `start` — the
result is the tuple of entry values at positions `i1..i2` (inclusive)
given by the per-policy search on both bounds: it exists (no error), has
exactly `i2 - i1 + 1` elements, and ends with the value governing the end
boundary itself (the point query at the upper bound).  This covers
`+inf` upper bounds under policy `end` and `-inf` upper bounds. -/
theorem range_query_values {V : Type} (m : SliceMap V) (hR : Reachable m)
    (lo hi : EKey) (h1 : lo ≤ hi) (h2 : m.inc = Side.start → hi < (⊤ : EKey)) :
    SliceMap.searchOp m.inc m.data lo ≤ SliceMap.searchOp m.inc m.data hi ∧
    ∃ res, m.getRange lo hi = some res ∧
      res.length
        = SliceMap.searchOp m.inc m.data hi - SliceMap.searchOp m.inc m.data lo + 1 ∧
      res.getLast? = m.getItem hi := by
  obtain ⟨hP, psent, hpmem, hpkey⟩ := reachable_SMInv hR
  have hmono : SliceMap.searchOp m.inc m.data lo ≤ SliceMap.searchOp m.inc m.data hi := by
    rw [searchOp_eq_qPred, searchOp_eq_qPred]
    exact length_takeWhile_le_of_imp (qPred_mono m.inc h1) m.data
  have hkey : SliceMap.searchOp m.inc m.data hi < m.data.length ∧
      (m.data[SliceMap.searchOp m.inc m.data hi]?).map Pair.value = m.getItem hi := by
    by_cases htop : hi = (⊤ : EKey)
    · rw [htop]
      rw [htop] at h2
      refine searchOp_end_top ⟨hP, psent, hpmem, hpkey⟩ ?_
      cases hinc : m.inc
      · exact absurd (h2 hinc) (lt_irrefl _)
      · rfl
    · have h3 : hi < (⊤ : EKey) := lt_of_le_of_ne le_top htop
      constructor
      · rw [searchOp_eq_qPred]
        exact length_takeWhile_lt_of_mem hpmem
          (qPred_eq_false_of_lt _ (by rw [hpkey]; exact h3))
      · by_cases hbot : hi = (⊥ : EKey)
        · rw [hbot]
          have hq0 : ∀ a ∈ m.data, qPred m.inc (⊥ : EKey) a = false :=
            fun a ha => qPred_eq_false_of_lt _ (reachable_keys_pos hR a ha)
          rw [searchOp_eq_qPred, takeWhile_eq_nil_of_all_false hq0]
          unfold SliceMap.getItem
          rw [if_neg (by decide : ¬((⊥ : EKey) = (⊤ : EKey))), if_pos rfl,
            List.head?_eq_getElem?]
          rfl
        · have h4 : (⊥ : EKey) < hi := bot_lt_iff_ne_bot.mpr hbot
          unfold SliceMap.getItem
          rw [if_neg (ne_of_lt h3), if_neg (ne_of_gt h4)]
  obtain ⟨hi2lt, hgi⟩ := hkey
  refine ⟨hmono, ?_⟩
  have hbound : ∀ i ∈ List.range' (SliceMap.searchOp m.inc m.data lo)
      (SliceMap.searchOp m.inc m.data hi + 1 - SliceMap.searchOp m.inc m.data lo),
      i < m.data.length := by
    intro i hi'
    have hmem := List.mem_range'_1.mp hi'
    omega
  obtain ⟨vs, hvs, hlen, hlast⟩ := collectVals_spec m.data _ hbound
  refine ⟨vs, ?_, ?_, ?_⟩
  · show SliceMap.collectVals m.data (List.range' (SliceMap.searchOp m.inc m.data lo)
      (SliceMap.searchOp m.inc m.data hi + 1 - SliceMap.searchOp m.inc m.data lo))
      = some vs
    exact hvs
  · rw [hlen, List.length_range']
    omega
  · have hn0 : SliceMap.searchOp m.inc m.data hi + 1
        - SliceMap.searchOp m.inc m.data lo ≠ 0 := by omega
    have hlast_idx : (List.range' (SliceMap.searchOp m.inc m.data lo)
        (SliceMap.searchOp m.inc m.data hi + 1 - SliceMap.searchOp m.inc m.data lo)).getLast?
        = some (SliceMap.searchOp m.inc m.data hi) := by
      rw [List.getLast?_range', if_neg hn0]
      congr 1
      omega
    rw [hlast _ hlast_idx]
    exact hgi

/-- Witness for C9 on a fresh map with the range `[0, 1)`. -/
theorem range_query_values_witness :
    SliceMap.searchOp (SliceMap.init Bool Side.start).inc
        (SliceMap.init Bool Side.start).data (EKey.fin 0)
      ≤ SliceMap.searchOp (SliceMap.init Bool Side.start).inc
        (SliceMap.init Bool Side.start).data (EKey.fin 1) ∧
    ∃ res, (SliceMap.init Bool Side.start).getRange (EKey.fin 0) (EKey.fin 1)
        = some res ∧
      res.length
        = SliceMap.searchOp (SliceMap.init Bool Side.start).inc
            (SliceMap.init Bool Side.start).data (EKey.fin 1)
          - SliceMap.searchOp (SliceMap.init Bool Side.start).inc
            (SliceMap.init Bool Side.start).data (EKey.fin 0) + 1 ∧
      res.getLast? = (SliceMap.init Bool Side.start).getItem (EKey.fin 1) :=
  range_query_values _ (Reachable.init _) _ _ (by decide) (fun _ => by decide)

/-- C9, counterexample to the unrestricted claim: on a fresh `start`-policy
map, the range query with upper bound `+inf` raises (models as `none`)
instead of returning a tuple of values. -/
theorem range_query_claim_counterexample :
    (SliceMap.init Bool Side.start).getRange (EKey.fin 0) (⊤ : EKey) = none := by
  decide

/-- C10: on a `start`-policy map, a range query whose upper bound is `+inf`
computes an end index equal to the number of stored entries and the
indexing goes out of bounds (an error, modelled as `none`); on the same
map under policy `end` the identical query stays in bounds. -/
theorem range_query_inf_out_of_bounds :
    SliceMap.searchOp Side.start
        (((SliceMap.init ℕ Side.start).setItem (EKey.fin 0) (EKey.fin 10)
          (some 1))).data (⊤ : EKey)
      = (((SliceMap.init ℕ Side.start).setItem (EKey.fin 0) (EKey.fin 10)
          (some 1))).data.length ∧
    (((SliceMap.init ℕ Side.start).setItem (EKey.fin 0) (EKey.fin 10)
        (some 1))).getRange (EKey.fin 2) (⊤ : EKey) = none ∧
    (((SliceMap.init ℕ Side.«end»).setItem (EKey.fin 0) (EKey.fin 10)
        (some 1))).getRange (EKey.fin 2) (⊤ : EKey) = some [some 1, none] := by
  exact ⟨by decide, by decide, by decide⟩

/-- Witness for C1: assigning `[0, 10)` on a fresh map, the inside key 5
reads the new value. -/
theorem assign_inside_outside_witness :
    ((SliceMap.init Bool Side.start).setItem (EKey.fin 0) (EKey.fin 10)
        (some true)).getItem (EKey.fin 5) = some (some true) :=
  (assign_inside_outside _ (Reachable.init _) _ _ _ (by decide)).1 5 (by decide) (by decide)
